import Mathlib

/-!
Verification of the PAMM shortcut-expansion pipeline (src/pamm/PAMM.cpp) and the
clustering base contract (src/clusters/ClusteringBase.h) of the plumed2 repository.

The shallow embedding below mirrors the C++ sources:
* `PAMM.expandShortcut` reproduces, word for word, the action lines that
  `PAMM::expandShortcut` pushes into its `actions` vector.  Kernel records are
  read from a stream of `Option String` values modelling the successive return
  values of `KernelFunctions::read` (a `none` is a failed read / end of file).
  The extra actions appended by `MultiColvarBase::expandFunctions` (whose body
  is outside the scoped sources) are kept abstract as a parameter `ef`.
* Numbers are printed with `Nat.repr`, the decimal conversion performed by
  `Tools::convert`.
* The semantics of the generated KERNEL / COMBINE / MATHEVAL actions is not part
  of the scoped sources, so it is modelled from the spec (each such definition
  carries a doc comment saying so); machine floating point is modelled by exact
  rational arithmetic.
-/

/-! ### String helpers -/

theorem strData_append (a b : String) : (a ++ b).data = a.data ++ b.data := by
  cases a; cases b; rfl

theorem strMk_data (s : String) : String.mk s.data = s := rfl

theorem strExt {a b : String} (h : a.data = b.data) : a = b := by
  cases a; cases b; exact congrArg String.mk h

theorem strAppend_assoc (a b c : String) : a ++ b ++ c = a ++ (b ++ c) := by
  apply strExt; simp [strData_append]

theorem strAppend_left_cancel {x a b : String} (h : x ++ a = x ++ b) : a = b := by
  apply strExt
  have hd := congrArg String.data h
  rw [strData_append, strData_append] at hd
  exact List.append_cancel_left hd

theorem strAppend_ne_of_data_ne (x : String) {a b : String} (h : a.data ≠ b.data) :
    x ++ a ≠ x ++ b := by
  intro he
  exact h (congrArg String.data (strAppend_left_cancel he))

/-- Drop the final character of a string (used to turn a label word such as
`"lab:"` back into the label `"lab"`). -/
def stripColon (s : String) : String := String.mk s.data.dropLast

theorem stripColon_append (s : String) : stripColon (s ++ ":") = s := by
  apply strExt
  simp [stripColon, strData_append, List.dropLast_concat]

/-- Everything before the first `=` of a keyword word such as `"ARG1=psi"`. -/
def beforeEq (s : String) : String := String.mk (s.data.takeWhile (fun c => c != '='))

/-- Everything after the first `=` of a keyword word such as `"ARG1=psi"`. -/
def afterEq (s : String) : String := String.mk ((s.data.dropWhile (fun c => c != '=')).tail)

theorem takeWhile_until_eqmark (xs ys : List Char) (h : ∀ c ∈ xs, c ≠ '=') :
    (xs ++ '=' :: ys).takeWhile (fun c => c != '=') = xs := by
  induction xs with
  | nil => simp
  | cons c xs ih =>
      have hc : c ≠ '=' := h c (List.mem_cons_self c xs)
      simp only [List.cons_append, List.takeWhile_cons]
      simp [hc, ih (fun d hd => h d (List.mem_cons_of_mem c hd))]

theorem dropWhile_until_eqmark (xs ys : List Char) (h : ∀ c ∈ xs, c ≠ '=') :
    (xs ++ '=' :: ys).dropWhile (fun c => c != '=') = '=' :: ys := by
  induction xs with
  | nil => simp
  | cons c xs ih =>
      have hc : c ≠ '=' := h c (List.mem_cons_self c xs)
      simp only [List.cons_append, List.dropWhile_cons]
      simp [hc, ih (fun d hd => h d (List.mem_cons_of_mem c hd))]

theorem beforeEq_of_data {s : String} {xs ys : List Char}
    (hd : s.data = xs ++ '=' :: ys) (h : ∀ c ∈ xs, c ≠ '=') :
    beforeEq s = String.mk xs := by
  unfold beforeEq; rw [hd, takeWhile_until_eqmark xs ys h]

theorem afterEq_of_data {s : String} {xs ys : List Char}
    (hd : s.data = xs ++ '=' :: ys) (h : ∀ c ∈ xs, c ≠ '=') :
    afterEq s = String.mk ys := by
  unfold afterEq; rw [hd, dropWhile_until_eqmark xs ys h]; rfl

/-! ### Decimal digits of `Nat.repr` -/

theorem digitChar_lt10_ne_eqmark {m : ℕ} (hm : m < 10) : Nat.digitChar m ≠ '=' := by
  interval_cases m <;> decide

theorem toDigitsCore_ne_eqmark (fuel n : ℕ) (ds : List Char) (h : ∀ c ∈ ds, c ≠ '=') :
    ∀ c ∈ Nat.toDigitsCore 10 fuel n ds, c ≠ '=' := by
  induction fuel generalizing n ds with
  | zero => simpa [Nat.toDigitsCore] using h
  | succ fuel ih =>
      intro c hc
      rw [Nat.toDigitsCore] at hc
      have hds : ∀ d ∈ Nat.digitChar (n % 10) :: ds, d ≠ '=' := by
        intro d hd
        rcases List.mem_cons.mp hd with h1 | h2
        · exact h1 ▸ digitChar_lt10_ne_eqmark (Nat.mod_lt n (by norm_num))
        · exact h d h2
      by_cases hz : n / 10 = 0
      · simp only [hz, if_pos] at hc
        exact hds c hc
      · simp only [hz, if_neg, not_false_iff] at hc
        exact ih (n / 10) (Nat.digitChar (n % 10) :: ds) hds c hc

theorem natRepr_ne_eqmark (n : ℕ) : ∀ c ∈ (Nat.repr n).data, c ≠ '=' := by
  intro c hc
  have : (Nat.repr n).data = Nat.toDigitsCore 10 (n + 1) n [] := rfl
  rw [this] at hc
  exact toDigitsCore_ne_eqmark (n + 1) n [] (by simp) c hc

/-! ### A small decimal parser (used to read the REGULARISE value out of the
generated `FUNC=x+...` string) -/

def digitVal? (c : Char) : Option ℕ :=
  if c = '0' then some 0 else if c = '1' then some 1 else if c = '2' then some 2
  else if c = '3' then some 3 else if c = '4' then some 4 else if c = '5' then some 5
  else if c = '6' then some 6 else if c = '7' then some 7 else if c = '8' then some 8
  else if c = '9' then some 9 else none

def parseNatCore : List Char → ℕ → Option ℕ
  | [], acc => some acc
  | c :: cs, acc =>
      match digitVal? c with
      | some d => parseNatCore cs (10 * acc + d)
      | none => none

/-- Parse a plain decimal literal such as `"0.001"` into an exact rational. -/
def parseDecimal (s : String) : Option ℚ :=
  let ip := s.data.takeWhile (fun c => c != '.')
  match s.data.dropWhile (fun c => c != '.') with
  | [] => (parseNatCore ip 0).map (fun v => (v : ℚ))
  | _ :: fp =>
      match parseNatCore ip 0, parseNatCore fp 0 with
      | some a, some b => some ((a : ℚ) + (b : ℚ) / (10 : ℚ) ^ fp.length)
      | _, _ => none

/-! ### The PAMM shortcut expansion (translated from `PAMM::expandShortcut`,
src/pamm/PAMM.cpp lines 129-178) -/

/-- Label of the action computing the k-th kernel value (0-based `k`; the file
uses the 1-based number `k+1`): `lab + "_kernel-" + num`. -/
def kernelLabel (lab : String) (k : ℕ) : String := lab ++ "_kernel-" ++ Nat.repr (k + 1)

/-- Label of the published k-th responsibility: `lab + "-" + num`. -/
def respLabel (lab : String) (k : ℕ) : String := lab ++ "-" ++ Nat.repr (k + 1)

/-- The KERNEL action pushed for the k-th kernel record (PAMM.cpp lines 143-150). -/
def kernelActionOf (lab : String) (valnames : List String) (k : ℕ) (kdef : String) :
    List String :=
  (kernelLabel lab k ++ ":") :: "KERNEL" :: "NORMALIZED" ::
    ((List.range valnames.length).map
      (fun j => "ARG" ++ Nat.repr (j + 1) ++ "=" ++ valnames.getD j ""))
    ++ ["KERNEL=" ++ kdef]

/-- The kernel reading loop (PAMM.cpp lines 140-153): one action per record,
numbering the kernels with the loop counter. -/
def kernelActions (lab : String) (valnames : List String) : ℕ → List String → List (List String)
  | _, [] => []
  | k, kdef :: rest => kernelActionOf lab valnames k kdef :: kernelActions lab valnames (k + 1) rest

/-- The COMBINE action summing all kernel values (PAMM.cpp lines 157-162). -/
def combineAction (lab : String) (n : ℕ) : List String :=
  (lab ++ "_ksum" ++ ":") :: "COMBINE" ::
    ((List.range n).map (fun k => "ARG" ++ Nat.repr (k + 1) ++ "=" ++ kernelLabel lab k))
    ++ ["PERIODIC=NO"]

/-- The MATHEVAL action adding the regularisation value (PAMM.cpp lines 165-167). -/
def rksumAction (lab reg : String) : List String :=
  [lab ++ "_rksum" ++ ":", "MATHEVAL", "ARG1=" ++ lab ++ "_ksum", "FUNC=x+" ++ reg,
   "PERIODIC=NO"]

/-- The MATHEVAL action publishing the k-th responsibility (PAMM.cpp lines 170-175). -/
def respAction (lab : String) (k : ℕ) : List String :=
  [respLabel lab k ++ ":", "MATHEVAL", "ARG1=" ++ kernelLabel lab k,
   "ARG2=" ++ lab ++ "_rksum", "FUNC=x/y", "PERIODIC=NO"]

/-- Successive results of `KernelFunctions::read`, taken until the first failed
read, exactly as the `for(k=0;;++k){ ...; if(!kk) break; ... }` loop does. -/
def readKernelInputs : List (Option String) → List String
  | [] => []
  | none :: _ => []
  | some s :: r => s :: readKernelInputs r

/-- The responsibility-publishing loop (PAMM.cpp lines 170-177): for each kernel,
the `x/y` MATHEVAL action followed by the extra actions that
`MultiColvarBase::expandFunctions` appends for that responsibility label. -/
def respActions (lab : String) (ef : String → List (List String)) (m : ℕ) :
    List (List String) :=
  ((List.range m).map (fun k => respAction lab k :: ef (respLabel lab k))).flatten

/-- `PAMM::expandShortcut` (PAMM.cpp lines 129-178).  `stream` models the
successive return values of `KernelFunctions::read` on the CLUSTERS file,
`reg` the REGULARISE keyword value, and `ef lbl` the actions appended by
`MultiColvarBase::expandFunctions` for the responsibility labelled `lbl`
(that function is outside the scoped sources, so it stays abstract). -/
def PAMM.expandShortcut (lab : String) (valnames : List String)
    (stream : List (Option String)) (reg : String)
    (ef : String → List (List String)) : List (List String) :=
  let kdefs := readKernelInputs stream
  let n := kdefs.length
  kernelActions lab valnames 0 kdefs
    ++ [combineAction lab n, rksumAction lab reg]
    ++ respActions lab ef n

/-- Keyword registration record: `Keywords::add(ktype, name [, default], descr)`. -/
structure Keyword where
  ktype : String
  name : String
  defaultVal : Option String
  descr : String
deriving DecidableEq

/-- `PAMM::shortcutKeywords` (PAMM.cpp lines 122-127): the three PAMM keywords
followed by whatever `MultiColvarBase::shortcutKeywords` adds (abstract, since
that code is outside the scoped sources). -/
def PAMM.shortcutKeywordsList (mcb : List Keyword) : List Keyword :=
  ⟨"compulsory", "DATA", none,
    "the vectors from which the pamm coordinates are calculated"⟩ ::
  ⟨"compulsory", "CLUSTERS", none,
    "the name of the file that contains the definitions of all the clusters"⟩ ::
  ⟨"compulsory", "REGULARISE", some "0.001",
    "do not allow the denominator to be smaller then this value"⟩ :: mcb

/-! ### Semantics of the generated action chain -/

/-- Association-list environment mapping action labels to their values. -/
def lookupEnv : List (String × ℚ) → String → Option ℚ
  | [], _ => none
  | p :: r, s => if p.1 = s then some p.2 else lookupEnv r s

/-- Does a word carry an `ARGn=` keyword (it starts with the letters `ARG`)? -/
def argWord (w : String) : Bool :=
  match w.data with
  | 'A' :: 'R' :: 'G' :: _ => true
  | _ => false

/-- Find the value of keyword `key` among the words of an action line. -/
def findKey : List String → String → Option String
  | [], _ => none
  | w :: r, key => if beforeEq w = key then some (afterEq w) else findKey r key

/-- Value referenced by an `ARGn=name` word: the value recorded for `name`. -/
def wordVal (env : List (String × ℚ)) (w : String) : ℚ :=
  (lookupEnv env (afterEq w)).getD 0

/-- Modelled from the spec: the semantics of one generated action line.  The
implementations of the KERNEL, COMBINE and MATHEVAL actions are outside the
scoped sources; per the spec, a KERNEL action produces the kernel value for its
label (kept abstract as `kval`), COMBINE sums the values of its arguments, and
MATHEVAL evaluates its FUNC on its arguments (the expansion only ever emits
`FUNC=x+constant` and `FUNC=x/y`).  Each action publishes its value under its
label (the first word, with the trailing colon removed). -/
def runAction (kval : String → ℚ) (env : List (String × ℚ)) (act : List String) :
    List (String × ℚ) :=
  match act with
  | lbl :: ty :: rest =>
      let label := stripColon lbl
      if ty = "KERNEL" then (label, kval label) :: env
      else if ty = "COMBINE" then
        (label, ((rest.filter argWord).map (wordVal env)).sum) :: env
      else if ty = "MATHEVAL" then
        match findKey rest "FUNC" with
        | some f =>
            match f.data with
            | ['x', '/', 'y'] =>
                (label, (lookupEnv env ((findKey rest "ARG1").getD "")).getD 0
                  / (lookupEnv env ((findKey rest "ARG2").getD "")).getD 0) :: env
            | 'x' :: '+' :: cs =>
                match parseDecimal (String.mk cs) with
                | some c =>
                    (label, (lookupEnv env ((findKey rest "ARG1").getD "")).getD 0 + c) :: env
                | none => env
            | _ => env
        | none => env
      else env
  | _ => env

/-- Modelled from the spec: run the whole generated chain in order, every
simulation step, starting from an environment of already published values. -/
def runChain (kval : String → ℚ) (acts : List (List String)) (env : List (String × ℚ)) :
    List (String × ℚ) :=
  acts.foldl (runAction kval) env

/-- The label an action line publishes under. -/
def actionLabelOf (act : List String) : String := stripColon (act.headD "")

/-- A label that cannot collide with any of the labels the PAMM expansion
reserves for `lab`. -/
def SafeLabel (lab t : String) : Prop :=
  t ≠ lab ++ "_ksum" ∧ t ≠ lab ++ "_rksum" ∧
    (∀ a : String, t ≠ lab ++ "_kernel-" ++ a) ∧ (∀ a : String, t ≠ lab ++ "-" ++ a)

/-- Sum of all kernel values, i.e. the value the generated COMBINE computes. -/
def pammKsum (lab : String) (kval : String → ℚ) (n : ℕ) : ℚ :=
  ((List.range n).map (fun k => kval (kernelLabel lab k))).sum

/-! ### Word-level computations -/

theorem beforeEq_keyword (x y : String) (h : ∀ c ∈ x.data, c ≠ '=') :
    beforeEq (x ++ "=" ++ y) = x := by
  have hd : (x ++ "=" ++ y).data = x.data ++ '=' :: y.data := by
    rw [strData_append, strData_append]
    simp
  rw [beforeEq_of_data hd h, strMk_data]

theorem afterEq_keyword (x y : String) (h : ∀ c ∈ x.data, c ≠ '=') :
    afterEq (x ++ "=" ++ y) = y := by
  have hd : (x ++ "=" ++ y).data = x.data ++ '=' :: y.data := by
    rw [strData_append, strData_append]
    simp
  rw [afterEq_of_data hd h, strMk_data]

theorem argPrefix_no_eqmark (a : String) (h : ∀ c ∈ a.data, c ≠ '=') :
    ∀ c ∈ ("ARG" ++ a).data, c ≠ '=' := by
  intro c hc
  rw [strData_append] at hc
  rcases List.mem_append.mp hc with h1 | h2
  · have h3 : c ∈ ['A', 'R', 'G'] := h1
    simp only [List.mem_cons, List.not_mem_nil, or_false] at h3
    rcases h3 with rfl | rfl | rfl <;> decide
  · exact h c h2

theorem beforeEq_argnum (a y : String) (h : ∀ c ∈ a.data, c ≠ '=') :
    beforeEq ("ARG" ++ a ++ "=" ++ y) = "ARG" ++ a :=
  beforeEq_keyword ("ARG" ++ a) y (argPrefix_no_eqmark a h)

theorem afterEq_argnum (a y : String) (h : ∀ c ∈ a.data, c ≠ '=') :
    afterEq ("ARG" ++ a ++ "=" ++ y) = y :=
  afterEq_keyword ("ARG" ++ a) y (argPrefix_no_eqmark a h)

theorem beforeEq_arg1 (z : String) : beforeEq ("ARG1=" ++ z) = "ARG1" := by
  rw [show ("ARG1=" : String) = "ARG1" ++ "=" from by decide]
  exact beforeEq_keyword "ARG1" z (by decide)

theorem afterEq_arg1 (z : String) : afterEq ("ARG1=" ++ z) = z := by
  rw [show ("ARG1=" : String) = "ARG1" ++ "=" from by decide]
  exact afterEq_keyword "ARG1" z (by decide)

theorem beforeEq_arg2 (z : String) : beforeEq ("ARG2=" ++ z) = "ARG2" := by
  rw [show ("ARG2=" : String) = "ARG2" ++ "=" from by decide]
  exact beforeEq_keyword "ARG2" z (by decide)

theorem afterEq_arg2 (z : String) : afterEq ("ARG2=" ++ z) = z := by
  rw [show ("ARG2=" : String) = "ARG2" ++ "=" from by decide]
  exact afterEq_keyword "ARG2" z (by decide)

theorem beforeEq_funcplus (reg : String) : beforeEq ("FUNC=x+" ++ reg) = "FUNC" := by
  rw [show ("FUNC=x+" : String) = "FUNC" ++ "=" ++ "x+" from by decide, strAppend_assoc ("FUNC" ++ "=") "x+" reg]
  exact beforeEq_keyword "FUNC" ("x+" ++ reg) (by decide)

theorem afterEq_funcplus (reg : String) : afterEq ("FUNC=x+" ++ reg) = "x+" ++ reg := by
  rw [show ("FUNC=x+" : String) = "FUNC" ++ "=" ++ "x+" from by decide, strAppend_assoc ("FUNC" ++ "=") "x+" reg]
  exact afterEq_keyword "FUNC" ("x+" ++ reg) (by decide)

theorem funcplus_data (reg : String) : ("x+" ++ reg).data = 'x' :: '+' :: reg.data := by
  rw [strData_append]; rfl

theorem argWord_argnum (a y : String) : argWord ("ARG" ++ a ++ "=" ++ y) = true := by
  unfold argWord
  have hd : ("ARG" ++ a ++ "=" ++ y).data
      = 'A' :: 'R' :: 'G' :: (a.data ++ ("=" ++ y).data) := by
    rw [strData_append, strData_append, strData_append]
    simp
  rw [hd]
  rfl

theorem argWord_periodic : argWord "PERIODIC=NO" = false := rfl

theorem beforeEq_funcdiv : beforeEq "FUNC=x/y" = "FUNC" := by decide

theorem afterEq_funcdiv : afterEq "FUNC=x/y" = "x/y" := by decide

theorem beforeEq_periodic : beforeEq "PERIODIC=NO" = "PERIODIC" := by decide

theorem xdivy_data : ("x/y" : String).data = ['x', '/', 'y'] := rfl

/-! ### Running a single generated action -/

theorem runAction_cons (kval : String → ℚ) (env : List (String × ℚ)) (lbl ty : String)
    (rest : List String) :
    runAction kval env (lbl :: ty :: rest)
      = (if ty = "KERNEL" then (stripColon lbl, kval (stripColon lbl)) :: env
         else if ty = "COMBINE" then
           (stripColon lbl, ((rest.filter argWord).map (wordVal env)).sum) :: env
         else if ty = "MATHEVAL" then
           match findKey rest "FUNC" with
           | some f =>
               match f.data with
               | ['x', '/', 'y'] =>
                   (stripColon lbl, (lookupEnv env ((findKey rest "ARG1").getD "")).getD 0
                     / (lookupEnv env ((findKey rest "ARG2").getD "")).getD 0) :: env
               | 'x' :: '+' :: cs =>
                   match parseDecimal (String.mk cs) with
                   | some c =>
                       (stripColon lbl,
                         (lookupEnv env ((findKey rest "ARG1").getD "")).getD 0 + c) :: env
                   | none => env
               | _ => env
           | none => env
         else env) := rfl

theorem runAction_kernel (kval : String → ℚ) (env : List (String × ℚ)) (lab : String)
    (valnames : List String) (k : ℕ) (kdef : String) :
    runAction kval env (kernelActionOf lab valnames k kdef)
      = (kernelLabel lab k, kval (kernelLabel lab k)) :: env := by
  unfold kernelActionOf
  simp only [List.cons_append]
  rw [runAction_cons]
  simp [stripColon_append]

theorem runAction_combine (kval : String → ℚ) (env : List (String × ℚ)) (lab : String) (n : ℕ) :
    runAction kval env (combineAction lab n)
      = (lab ++ "_ksum",
          ((List.range n).map (fun k => (lookupEnv env (kernelLabel lab k)).getD 0)).sum)
        :: env := by
  have h1 : List.filter argWord
        ((List.range n).map (fun k => "ARG" ++ Nat.repr (k + 1) ++ "=" ++ kernelLabel lab k))
      = (List.range n).map (fun k => "ARG" ++ Nat.repr (k + 1) ++ "=" ++ kernelLabel lab k) :=
    List.filter_eq_self.mpr (by
      intro a ha
      rcases List.mem_map.mp ha with ⟨k, _, rfl⟩
      exact argWord_argnum (Nat.repr (k + 1)) (kernelLabel lab k))
  have h2 : List.filter argWord ["PERIODIC=NO"] = [] := rfl
  have hmap : ∀ k ∈ List.range n,
      (wordVal env ∘ fun k => "ARG" ++ Nat.repr (k + 1) ++ "=" ++ kernelLabel lab k) k
        = (lookupEnv env (kernelLabel lab k)).getD 0 := by
    intro k _
    show wordVal env ("ARG" ++ Nat.repr (k + 1) ++ "=" ++ kernelLabel lab k) = _
    unfold wordVal
    rw [afterEq_argnum _ _ (natRepr_ne_eqmark (k + 1))]
  unfold combineAction
  simp only [List.cons_append]
  rw [runAction_cons]
  simp only [List.filter_append, h1, h2, List.append_nil, stripColon_append, List.map_map]
  rw [List.map_congr_left hmap]
  simp

theorem runAction_rksum (kval : String → ℚ) (env : List (String × ℚ)) (lab reg : String)
    (ε : ℚ) (hreg : parseDecimal reg = some ε) :
    runAction kval env (rksumAction lab reg)
      = (lab ++ "_rksum", (lookupEnv env (lab ++ "_ksum")).getD 0 + ε) :: env := by
  have e1 : ("ARG1=" ++ lab ++ "_ksum" : String) = "ARG1=" ++ (lab ++ "_ksum") :=
    strAppend_assoc _ _ _
  unfold rksumAction
  rw [runAction_cons, e1, stripColon_append]
  simp only [findKey, beforeEq_arg1, afterEq_arg1, beforeEq_funcplus, afterEq_funcplus,
    beforeEq_periodic]
  simp [funcplus_data, strMk_data, hreg]

theorem runAction_resp (kval : String → ℚ) (env : List (String × ℚ)) (lab : String) (k : ℕ) :
    runAction kval env (respAction lab k)
      = (respLabel lab k,
          (lookupEnv env (kernelLabel lab k)).getD 0
            / (lookupEnv env (lab ++ "_rksum")).getD 0) :: env := by
  have e2 : ("ARG2=" ++ lab ++ "_rksum" : String) = "ARG2=" ++ (lab ++ "_rksum") :=
    strAppend_assoc _ _ _
  unfold respAction
  rw [runAction_cons, e2, stripColon_append]
  simp only [findKey, beforeEq_arg1, afterEq_arg1, beforeEq_arg2, afterEq_arg2,
    beforeEq_funcdiv, afterEq_funcdiv, beforeEq_periodic, xdivy_data]
  simp

/-! ### Environment plumbing -/

theorem runAction_shape (kval : String → ℚ) (env : List (String × ℚ)) (act : List String) :
    runAction kval env act = env
      ∨ ∃ v, runAction kval env act = (actionLabelOf act, v) :: env := by
  rcases act with _ | ⟨lbl, _ | ⟨ty, rest⟩⟩
  · exact Or.inl rfl
  · exact Or.inl rfl
  · have hlab : actionLabelOf (lbl :: ty :: rest) = stripColon lbl := rfl
    rw [runAction_cons, hlab]
    split_ifs with h1 h2 h3
    · exact Or.inr ⟨_, rfl⟩
    · exact Or.inr ⟨_, rfl⟩
    · split
      · split
        · exact Or.inr ⟨_, rfl⟩
        · split
          · exact Or.inr ⟨_, rfl⟩
          · exact Or.inl rfl
        · exact Or.inl rfl
      · exact Or.inl rfl
    · exact Or.inl rfl

theorem lookupEnv_runAction_ne (kval : String → ℚ) (env : List (String × ℚ))
    (act : List String) (s : String) (h : s ≠ actionLabelOf act) :
    lookupEnv (runAction kval env act) s = lookupEnv env s := by
  rcases runAction_shape kval env act with he | ⟨v, he⟩
  · rw [he]
  · rw [he]
    exact if_neg (fun hh => h hh.symm)

theorem env_suffix_runAction (kval : String → ℚ) (env : List (String × ℚ)) (act : List String) :
    env <:+ runAction kval env act := by
  rcases runAction_shape kval env act with he | ⟨v, he⟩
  · rw [he]
  · rw [he]
    exact List.suffix_cons _ _

theorem env_suffix_foldl (kval : String → ℚ) (acts : List (List String)) :
    ∀ env : List (String × ℚ), env <:+ List.foldl (runAction kval) env acts := by
  induction acts with
  | nil => intro env; exact List.suffix_refl env
  | cons act acts ih =>
      intro env
      rw [List.foldl_cons]
      exact (env_suffix_runAction kval env act).trans (ih (runAction kval env act))

theorem lookupEnv_kval (kval : String → ℚ) (env : List (String × ℚ))
    (hent : ∀ p ∈ env, p.2 = kval p.1) (s : String) (hs : s ∈ env.map Prod.fst) :
    lookupEnv env s = some (kval s) := by
  induction env with
  | nil => simp at hs
  | cons p env ih =>
      by_cases hp : p.1 = s
      · have : p.2 = kval p.1 := hent p (List.mem_cons_self p env)
        show (if p.1 = s then some p.2 else lookupEnv env s) = some (kval s)
        rw [if_pos hp, this, hp]
      · show (if p.1 = s then some p.2 else lookupEnv env s) = some (kval s)
        rw [if_neg hp]
        refine ih (fun q hq => hent q (List.mem_cons_of_mem p hq)) ?_
        rcases List.mem_map.mp hs with ⟨q, hq, hqs⟩
        rcases List.mem_cons.mp hq with rfl | hq2
        · exact absurd hqs hp
        · exact List.mem_map.mpr ⟨q, hq2, hqs⟩

/-! ### The kernel-reading phase -/

theorem kernelActions_entries (kval : String → ℚ) (lab : String) (valnames : List String) :
    ∀ (kdefs : List String) (k0 : ℕ) (env : List (String × ℚ)),
      (∀ p ∈ env, p.2 = kval p.1) →
      ∀ p ∈ List.foldl (runAction kval) env (kernelActions lab valnames k0 kdefs),
        p.2 = kval p.1 := by
  intro kdefs
  induction kdefs with
  | nil => intro k0 env h; simpa [kernelActions] using h
  | cons kd kdefs ih =>
      intro k0 env h
      rw [kernelActions, List.foldl_cons, runAction_kernel]
      refine ih (k0 + 1) _ ?_
      intro p hp
      rcases List.mem_cons.mp hp with rfl | hp2
      · rfl
      · exact h p hp2

theorem kernelActions_keys (kval : String → ℚ) (lab : String) (valnames : List String) :
    ∀ (kdefs : List String) (k0 : ℕ) (env : List (String × ℚ)) (i : ℕ), i < kdefs.length →
      kernelLabel lab (k0 + i) ∈
        (List.foldl (runAction kval) env (kernelActions lab valnames k0 kdefs)).map
          Prod.fst := by
  intro kdefs
  induction kdefs with
  | nil => intro k0 env i hi; simp at hi
  | cons kd kdefs ih =>
      intro k0 env i hi
      rw [kernelActions, List.foldl_cons, runAction_kernel]
      cases i with
      | zero =>
          have hmem : kernelLabel lab k0
              ∈ ((kernelLabel lab k0, kval (kernelLabel lab k0)) :: env).map Prod.fst := by
            simp
          have hsub :=
            List.map_subset Prod.fst
              (env_suffix_foldl kval (kernelActions lab valnames (k0 + 1) kdefs)
                ((kernelLabel lab k0, kval (kernelLabel lab k0)) :: env)).subset
          simpa using hsub hmem
      | succ i =>
          have := ih (k0 + 1) ((kernelLabel lab k0, kval (kernelLabel lab k0)) :: env) i
            (by simp only [List.length_cons] at hi; omega)
          have he : k0 + 1 + i = k0 + (i + 1) := by omega
          rwa [he] at this

theorem lookup_after_kernelActions (kval : String → ℚ) (lab : String) (valnames : List String)
    (kdefs : List String) (i : ℕ) (hi : i < kdefs.length) :
    lookupEnv (List.foldl (runAction kval) [] (kernelActions lab valnames 0 kdefs))
        (kernelLabel lab i)
      = some (kval (kernelLabel lab i)) := by
  have hk := kernelActions_keys kval lab valnames kdefs 0 [] i hi
  rw [Nat.zero_add] at hk
  exact lookupEnv_kval kval _
    (kernelActions_entries kval lab valnames kdefs 0 [] (by simp)) _ hk

/-! ### The reserved labels are pairwise distinct where it matters -/

theorem dash_data (s : String) : ("-" ++ s).data = '-' :: s.data := by
  rw [strData_append]; rfl

theorem kernelPrefix_data (s : String) : ("_kernel-" ++ s).data = '_' :: 'k' :: 'e' :: 'r' :: 'n' :: 'e' :: 'l' :: '-' :: s.data := by
  rw [strData_append]; rfl

theorem respLabel_ne_rksum (lab s : String) : lab ++ "-" ++ s ≠ lab ++ "_rksum" := by
  rw [strAppend_assoc]
  apply strAppend_ne_of_data_ne
  rw [dash_data]
  intro h
  have := congrArg List.head? h
  simp at this

theorem respLabel_ne_ksum (lab s : String) : lab ++ "-" ++ s ≠ lab ++ "_ksum" := by
  rw [strAppend_assoc]
  apply strAppend_ne_of_data_ne
  rw [dash_data]
  intro h
  have := congrArg List.head? h
  simp at this

theorem respLabel_ne_kernelLabel (lab s t : String) :
    lab ++ "-" ++ s ≠ lab ++ "_kernel-" ++ t := by
  rw [strAppend_assoc, strAppend_assoc]
  apply strAppend_ne_of_data_ne
  rw [dash_data, kernelPrefix_data]
  intro h
  have := congrArg List.head? h
  simp at this

theorem kernelLabel_ne_ksum (lab t : String) : lab ++ "_kernel-" ++ t ≠ lab ++ "_ksum" := by
  rw [strAppend_assoc]
  apply strAppend_ne_of_data_ne
  rw [kernelPrefix_data]
  intro h
  have := congrArg (fun l => List.head? (List.tail (List.tail l))) h
  simp at this

theorem kernelLabel_ne_rksum (lab t : String) : lab ++ "_kernel-" ++ t ≠ lab ++ "_rksum" := by
  rw [strAppend_assoc]
  apply strAppend_ne_of_data_ne
  rw [kernelPrefix_data]
  intro h
  have := congrArg (fun l => List.head? (List.tail l)) h
  simp at this

/-- The label forms reserved by the expansion for base label `lab`. -/
def ReservedLabel (lab s : String) : Prop :=
  s = lab ++ "_ksum" ∨ s = lab ++ "_rksum"
    ∨ (∃ a, s = lab ++ "_kernel-" ++ a) ∨ (∃ a, s = lab ++ "-" ++ a)

theorem lookupEnv_foldl_safe (kval : String → ℚ) (lab : String) (acts : List (List String))
    (hsafe : ∀ act ∈ acts, SafeLabel lab (actionLabelOf act)) :
    ∀ (env : List (String × ℚ)) (s : String), ReservedLabel lab s →
      lookupEnv (List.foldl (runAction kval) env acts) s = lookupEnv env s := by
  induction acts with
  | nil => intro env s _; rfl
  | cons act acts ih =>
      intro env s hs
      rw [List.foldl_cons]
      have h1 := ih (fun a ha => hsafe a (List.mem_cons_of_mem act ha))
        (runAction kval env act) s hs
      rw [h1]
      apply lookupEnv_runAction_ne
      have hact := hsafe act (List.mem_cons_self act acts)
      rcases hs with rfl | rfl | ⟨a, rfl⟩ | ⟨a, rfl⟩
      · exact fun hh => hact.1 hh.symm
      · exact fun hh => hact.2.1 hh.symm
      · exact fun hh => hact.2.2.1 a hh.symm
      · exact fun hh => hact.2.2.2 a hh.symm

theorem respLabel_cancel {lab : String} {m j : ℕ}
    (h : respLabel lab m = respLabel lab j) : Nat.repr (m + 1) = Nat.repr (j + 1) := by
  unfold respLabel at h
  rw [strAppend_assoc, strAppend_assoc] at h
  have h2 := strAppend_left_cancel h
  exact strAppend_left_cancel h2

/-- Running the responsibility loop: the regularised-sum and kernel lookups are
preserved, and each processed responsibility label holds its kernel value
divided by the regularised sum. -/
theorem resp_phase (kval : String → ℚ) (lab : String)
    (ef : String → List (List String)) (D : ℚ) (n : ℕ)
    (hef : ∀ s act, act ∈ ef s → SafeLabel lab (actionLabelOf act)) :
    ∀ m : ℕ, m ≤ n → ∀ env : List (String × ℚ),
      lookupEnv env (lab ++ "_rksum") = some D →
      (∀ k, k < n → lookupEnv env (kernelLabel lab k) = some (kval (kernelLabel lab k))) →
      (lookupEnv (List.foldl (runAction kval) env (respActions lab ef m)) (lab ++ "_rksum")
          = some D
        ∧ (∀ k, k < n →
            lookupEnv (List.foldl (runAction kval) env (respActions lab ef m))
                (kernelLabel lab k)
              = some (kval (kernelLabel lab k)))
        ∧ (∀ j, j < m →
            lookupEnv (List.foldl (runAction kval) env (respActions lab ef m))
                (respLabel lab j)
              = some (kval (kernelLabel lab j) / D))) := by
  intro m
  induction m with
  | zero =>
      intro _ env hRK hK
      refine ⟨hRK, hK, ?_⟩
      intro j hj
      exact absurd hj (Nat.not_lt_zero j)
  | succ m ih =>
      intro hm env hRK hK
      have hsplit : respActions lab ef (m + 1)
          = respActions lab ef m ++ (respAction lab m :: ef (respLabel lab m)) := by
        unfold respActions
        rw [List.range_succ, List.map_append]
        simp
      rw [hsplit, List.foldl_append]
      obtain ⟨hRK1, hK1, hR1⟩ := ih (by omega) env hRK hK
      set env1 := List.foldl (runAction kval) env (respActions lab ef m) with henv1
      rw [List.foldl_cons]
      have hstep : runAction kval env1 (respAction lab m)
          = (respLabel lab m, kval (kernelLabel lab m) / D) :: env1 := by
        rw [runAction_resp, hK1 m (by omega), hRK1]
        rfl
      rw [hstep]
      set env2 := (respLabel lab m, kval (kernelLabel lab m) / D) :: env1 with henv2
      have hefsafe : ∀ act ∈ ef (respLabel lab m), SafeLabel lab (actionLabelOf act) :=
        fun act ha => hef _ act ha
      have hpres := lookupEnv_foldl_safe kval lab (ef (respLabel lab m)) hefsafe env2
      refine ⟨?_, ?_, ?_⟩
      · rw [hpres _ (Or.inr (Or.inl rfl))]
        show (if respLabel lab m = lab ++ "_rksum" then some (kval (kernelLabel lab m) / D)
          else lookupEnv env1 (lab ++ "_rksum")) = some D
        rw [if_neg (show respLabel lab m ≠ lab ++ "_rksum" from respLabel_ne_rksum lab _), hRK1]
      · intro k hk
        rw [hpres (kernelLabel lab k) (Or.inr (Or.inr (Or.inl ⟨Nat.repr (k + 1), rfl⟩)))]
        show (if respLabel lab m = kernelLabel lab k then _ else lookupEnv env1 (kernelLabel lab k))
          = some (kval (kernelLabel lab k))
        rw [if_neg (show respLabel lab m ≠ kernelLabel lab k from
          respLabel_ne_kernelLabel lab _ _), hK1 k hk]
      · intro j hj
        rw [hpres (respLabel lab j) (Or.inr (Or.inr (Or.inr ⟨Nat.repr (j + 1), rfl⟩)))]
        show (if respLabel lab m = respLabel lab j then some (kval (kernelLabel lab m) / D)
          else lookupEnv env1 (respLabel lab j)) = some (kval (kernelLabel lab j) / D)
        by_cases hlab : respLabel lab m = respLabel lab j
        · rw [if_pos hlab]
          have hnum := respLabel_cancel hlab
          have hkl : kernelLabel lab m = kernelLabel lab j := by
            unfold kernelLabel
            rw [hnum]
          rw [hkl]
        · rw [if_neg hlab]
          rcases Nat.lt_succ_iff_lt_or_eq.mp hj with hj2 | rfl
          · exact hR1 j hj2
          · exact absurd rfl hlab

/-- Evaluating the full expanded chain from an empty environment: the
regularised sum holds `Σ value + ε` and every responsibility label holds
`value / (Σ value + ε)`. -/
theorem pamm_chain_eval (lab reg : String) (valnames : List String)
    (stream : List (Option String)) (ef : String → List (List String))
    (kval : String → ℚ) (ε : ℚ)
    (hreg : parseDecimal reg = some ε)
    (hef : ∀ s act, act ∈ ef s → SafeLabel lab (actionLabelOf act)) :
    lookupEnv (runChain kval (PAMM.expandShortcut lab valnames stream reg ef) [])
        (lab ++ "_rksum")
      = some (pammKsum lab kval (readKernelInputs stream).length + ε)
    ∧ ∀ k, k < (readKernelInputs stream).length →
        lookupEnv (runChain kval (PAMM.expandShortcut lab valnames stream reg ef) [])
            (respLabel lab k)
          = some (kval (kernelLabel lab k)
              / (pammKsum lab kval (readKernelInputs stream).length + ε)) := by
  set kdefs := readKernelInputs stream with hkdefs
  set n := kdefs.length with hn
  have hexp : PAMM.expandShortcut lab valnames stream reg ef
      = kernelActions lab valnames 0 kdefs
          ++ [combineAction lab n, rksumAction lab reg] ++ respActions lab ef n := rfl
  have h0 : runChain kval (PAMM.expandShortcut lab valnames stream reg ef) []
      = List.foldl (runAction kval)
          (List.foldl (runAction kval)
            (List.foldl (runAction kval) [] (kernelActions lab valnames 0 kdefs))
            [combineAction lab n, rksumAction lab reg])
          (respActions lab ef n) := by
    unfold runChain
    rw [hexp, List.foldl_append, List.foldl_append]
  set env1 := List.foldl (runAction kval) [] (kernelActions lab valnames 0 kdefs) with henv1
  have hK1 : ∀ k, k < n → lookupEnv env1 (kernelLabel lab k)
      = some (kval (kernelLabel lab k)) :=
    fun k hk => lookup_after_kernelActions kval lab valnames kdefs k hk
  have hS : ((List.range n).map (fun k => (lookupEnv env1 (kernelLabel lab k)).getD 0)).sum
      = pammKsum lab kval n := by
    unfold pammKsum
    refine congrArg List.sum (List.map_congr_left ?_)
    intro k hk
    rw [hK1 k (List.mem_range.mp hk)]
    rfl
  have hc : runAction kval env1 (combineAction lab n)
      = (lab ++ "_ksum", pammKsum lab kval n) :: env1 := by
    rw [runAction_combine, hS]
  have hmid : List.foldl (runAction kval) env1 [combineAction lab n, rksumAction lab reg]
      = (lab ++ "_rksum", pammKsum lab kval n + ε)
          :: (lab ++ "_ksum", pammKsum lab kval n) :: env1 := by
    rw [List.foldl_cons, hc, List.foldl_cons, List.foldl_nil,
      runAction_rksum kval _ lab reg ε hreg]
    have hKS : (lookupEnv ((lab ++ "_ksum", pammKsum lab kval n) :: env1)
        (lab ++ "_ksum")).getD 0 = pammKsum lab kval n := by
      show (if lab ++ "_ksum" = lab ++ "_ksum" then some (pammKsum lab kval n)
        else lookupEnv env1 (lab ++ "_ksum")).getD 0 = pammKsum lab kval n
      rw [if_pos rfl]
      rfl
    rw [hKS]
  set env3 := (lab ++ "_rksum", pammKsum lab kval n + ε)
      :: (lab ++ "_ksum", pammKsum lab kval n) :: env1 with henv3
  have hRK3 : lookupEnv env3 (lab ++ "_rksum") = some (pammKsum lab kval n + ε) := by
    show (if lab ++ "_rksum" = lab ++ "_rksum" then some (pammKsum lab kval n + ε)
      else lookupEnv ((lab ++ "_ksum", pammKsum lab kval n) :: env1) (lab ++ "_rksum"))
      = some (pammKsum lab kval n + ε)
    rw [if_pos rfl]
  have hK3 : ∀ k, k < n → lookupEnv env3 (kernelLabel lab k)
      = some (kval (kernelLabel lab k)) := by
    intro k hk
    have h1 : (lab ++ "_rksum") ≠ kernelLabel lab k :=
      fun hh => kernelLabel_ne_rksum lab (Nat.repr (k + 1)) hh.symm
    have h2 : (lab ++ "_ksum") ≠ kernelLabel lab k :=
      fun hh => kernelLabel_ne_ksum lab (Nat.repr (k + 1)) hh.symm
    show (if lab ++ "_rksum" = kernelLabel lab k then some (pammKsum lab kval n + ε)
      else if lab ++ "_ksum" = kernelLabel lab k then some (pammKsum lab kval n)
      else lookupEnv env1 (kernelLabel lab k)) = some (kval (kernelLabel lab k))
    rw [if_neg h1, if_neg h2, hK1 k hk]
  obtain ⟨hRKf, _, hRf⟩ := resp_phase kval lab ef (pammKsum lab kval n + ε) n hef n
    le_rfl env3 hRK3 hK3
  constructor
  · rw [h0, hmid]
    exact hRKf
  · intro k hk
    rw [h0, hmid]
    exact hRf k hk

/-! ### ClusteringBase (src/clusters/ClusteringBase.h) -/

/-- A fatal error raised through the `plumed_error()` / `error` machinery. -/
inductive PlumedError where
  | plumedError
deriving DecidableEq

/-- A value argument, carrying only its shape (all `getNumberOfNodes` reads). -/
structure PlumedValue where
  shape : List ℕ

/-- `ClusteringBase::getForceOnMatrixElement` (ClusteringBase.h line 54): the
body is `plumed_error();` for every index triple. -/
def ClusteringBase.getForceOnMatrixElement (imat jrow krow : ℕ) : Except PlumedError ℚ :=
  Except.error PlumedError.plumedError

/-- Modelled from the spec: `ClusteringBase::apply` is declared in
ClusteringBase.h line 53 ("Cannot apply forces on a clustering object") but its
body is not among the scoped sources; per the spec (section 4.5 and the
`ForceOnNonDifferentiable` taxonomy entry), an attempt to propagate a force
through the hard cluster assignment fails fast with a fatal error. -/
def ClusteringBase.applyForce : Except PlumedError Unit :=
  Except.error PlumedError.plumedError

/-- `ClusteringBase::getNumberOfNodes` (ClusteringBase.h lines 57-60):
`getPntrToArgument(0)->getShape()[0]`. -/
def ClusteringBase.getNumberOfNodes (args : List PlumedValue) : ℕ :=
  ((args.getD 0 ⟨[]⟩).shape).getD 0 0

/-- Modelled from the spec (section 4.5): depth-first traversal assigning
cluster id `cid` to every reachable unvisited node; unvisited nodes are `none`
in `which`.  `fuel` bounds the number of steps (each step pops one stack entry,
and a pop pushes neighbours only when its node was newly assigned, so
1 + the total neighbour-list length plus the node count amply suffices). -/
def dfsAssign (adj : ℕ → List ℕ) (cid : ℕ) :
    ℕ → List ℕ → List (Option ℕ) → List (Option ℕ)
  | 0, _, which => which
  | _ + 1, [], which => which
  | fuel + 1, v :: stack, which =>
      match which[v]? with
      | some none => dfsAssign adj cid fuel (adj v ++ stack) (which.set v (some cid))
      | _ => dfsAssign adj cid fuel stack which

/-- Modelled from the spec (section 4.5): visit the nodes in index order; every
still-unvisited node starts a depth-first traversal that labels its component
with a fresh cluster id. -/
def clusterNodes (adj : ℕ → List ℕ) (fuel : ℕ) :
    List ℕ → List (Option ℕ) → ℕ → List (Option ℕ) × ℕ
  | [], which, ncl => (which, ncl)
  | i :: rest, which, ncl =>
      match which[i]? with
      | some none =>
          clusterNodes adj fuel rest (dfsAssign adj ncl fuel [i] which) (ncl + 1)
      | _ => clusterNodes adj fuel rest which ncl

/-- Modelled from the spec: a step bound amply covering a full traversal. -/
def clusterFuel (adj : ℕ → List ℕ) (N : ℕ) : ℕ :=
  ((List.range N).map (fun v => (adj v).length)).sum + N + 1

/-- Modelled from the spec (section 4.5): `performClustering` over `N` nodes
with neighbour lists `adj`; returns the per-node assignment (`which_cluster`)
and the number of clusters found (`number_of_cluster`). -/
def performClustering (adj : ℕ → List ℕ) (N : ℕ) : List (Option ℕ) × ℕ :=
  clusterNodes adj (clusterFuel adj N) (List.range N) (List.replicate N none) 0

/-- Modelled from the spec: the recorded per-cluster sizes (`cluster_sizes`),
one entry per cluster id. -/
def cluster_sizes (which : List (Option ℕ)) (ncl : ℕ) : List (ℕ × ℕ) :=
  (List.range ncl).map (fun c => (c, which.count (some c)))

/-! ### The PAMM action object (src/pamm/PAMM.cpp lines 110-120, 185-190) -/

/-- Configuration handed to an action constructor. -/
structure ActionOptions where
  line : List String

/-- `PAMM::PAMM` (PAMM.cpp lines 185-190): the constructor body is
`plumed_error();`, whatever the options. -/
def PAMM.construct (ao : ActionOptions) : Except PlumedError Unit :=
  Except.error PlumedError.plumedError

/-- `PLUMED_REGISTER_SHORTCUT(PAMM,"PAMM")` (PAMM.cpp line 120): the keyword
PAMM is registered as a shortcut, so input lines reading `PAMM` are expanded
through `PAMM::expandShortcut`. -/
def pammShortcutRegistration : String := "PAMM"

/-! ### Keyword defaults (C6) -/

def lookupStr : List (String × String) → String → Option String
  | [], _ => none
  | p :: r, s => if p.1 = s then some p.2 else lookupStr r s

/-- Modelled from the spec (section 6, configuration surface): the keyword
machinery (outside the scoped sources) resolves a compulsory keyword to the
caller-supplied value when one is given and to the registered default
otherwise. -/
def effectiveKeyValue (user : List (String × String)) (kw : Keyword) : Option String :=
  match lookupStr user kw.name with
  | some v => some v
  | none => kw.defaultVal

/-! ### Invariants of the clustering pass -/

theorem dfsAssign_length (adj : ℕ → List ℕ) (cid : ℕ) :
    ∀ (fuel : ℕ) (stack : List ℕ) (which : List (Option ℕ)),
      (dfsAssign adj cid fuel stack which).length = which.length := by
  intro fuel
  induction fuel with
  | zero => intro stack which; rfl
  | succ fuel ih =>
      intro stack which
      cases stack with
      | nil => rfl
      | cons v stack =>
          rw [dfsAssign]
          split
          · rw [ih, List.length_set]
          · exact ih _ _

theorem dfsAssign_preserves (adj : ℕ → List ℕ) (cid : ℕ) :
    ∀ (fuel : ℕ) (stack : List ℕ) (which : List (Option ℕ)) (i c : ℕ),
      which[i]? = some (some c) →
      (dfsAssign adj cid fuel stack which)[i]? = some (some c) := by
  intro fuel
  induction fuel with
  | zero => intro stack which i c h; exact h
  | succ fuel ih =>
      intro stack which i c h
      cases stack with
      | nil => exact h
      | cons v stack =>
          rw [dfsAssign]
          split
          · next hv =>
              refine ih _ _ i c ?_
              rw [List.getElem?_set]
              split
              · next hvi =>
                  subst hvi
                  rw [h] at hv
                  exact absurd hv (by simp)
              · exact h
          · exact ih _ _ i c h

theorem dfsAssign_new (adj : ℕ → List ℕ) (cid : ℕ) :
    ∀ (fuel : ℕ) (stack : List ℕ) (which : List (Option ℕ)) (i c : ℕ),
      (dfsAssign adj cid fuel stack which)[i]? = some (some c) →
      which[i]? = some (some c) ∨ c = cid := by
  intro fuel
  induction fuel with
  | zero => intro stack which i c h; exact Or.inl h
  | succ fuel ih =>
      intro stack which i c h
      cases stack with
      | nil => exact Or.inl h
      | cons v stack =>
          rw [dfsAssign] at h
          revert h
          split
          · next hv =>
              intro h
              rcases ih _ _ i c h with h2 | h2
              · rw [List.getElem?_set] at h2
                revert h2
                split
                · next hvi =>
                    subst hvi
                    split
                    · intro h3
                      exact Or.inr (by injection h3 with h4; injection h4 with h5; exact h5.symm)
                    · intro h3; exact absurd h3 (by simp)
                · intro h3; exact Or.inl h3
              · exact Or.inr h2
          · intro h
            exact ih _ _ i c h

theorem dfsAssign_start (adj : ℕ → List ℕ) (cid fuel : ℕ) (i : ℕ)
    (which : List (Option ℕ)) (hfuel : 1 ≤ fuel) (hi : which[i]? = some none) :
    (dfsAssign adj cid fuel [i] which)[i]? = some (some cid) := by
  cases fuel with
  | zero => exact absurd hfuel (by omega)
  | succ fuel =>
      rw [dfsAssign]
      rw [hi]
      refine dfsAssign_preserves adj cid fuel _ _ i cid ?_
      have hlen : i < which.length := by
        by_contra hge
        rw [List.getElem?_eq_none (by omega)] at hi
        exact absurd hi (by simp)
      rw [List.getElem?_set]
      simp [hlen]

theorem clusterNodes_cons_new (adj : ℕ → List ℕ) (fuel j : ℕ) (rest : List ℕ)
    (which : List (Option ℕ)) (ncl : ℕ) (h : which[j]? = some none) :
    clusterNodes adj fuel (j :: rest) which ncl
      = clusterNodes adj fuel rest (dfsAssign adj ncl fuel [j] which) (ncl + 1) := by
  rw [clusterNodes, h]

theorem clusterNodes_cons_none (adj : ℕ → List ℕ) (fuel j : ℕ) (rest : List ℕ)
    (which : List (Option ℕ)) (ncl : ℕ) (h : which[j]? = none) :
    clusterNodes adj fuel (j :: rest) which ncl = clusterNodes adj fuel rest which ncl := by
  rw [clusterNodes, h]

theorem clusterNodes_cons_old (adj : ℕ → List ℕ) (fuel j : ℕ) (rest : List ℕ)
    (which : List (Option ℕ)) (ncl : ℕ) (c : ℕ) (h : which[j]? = some (some c)) :
    clusterNodes adj fuel (j :: rest) which ncl = clusterNodes adj fuel rest which ncl := by
  rw [clusterNodes, h]

theorem clusterNodes_length (adj : ℕ → List ℕ) (fuel : ℕ) :
    ∀ (nodes : List ℕ) (which : List (Option ℕ)) (ncl : ℕ),
      (clusterNodes adj fuel nodes which ncl).1.length = which.length := by
  intro nodes
  induction nodes with
  | nil => intro which ncl; rfl
  | cons j rest ih =>
      intro which ncl
      rcases hwj : which[j]? with _ | x
      · rw [clusterNodes_cons_none adj fuel j rest which ncl hwj]
        exact ih _ _
      · rcases x with _ | c
        · rw [clusterNodes_cons_new adj fuel j rest which ncl hwj, ih, dfsAssign_length]
        · rw [clusterNodes_cons_old adj fuel j rest which ncl c hwj]
          exact ih _ _

theorem clusterNodes_preserves (adj : ℕ → List ℕ) (fuel : ℕ) :
    ∀ (nodes : List ℕ) (which : List (Option ℕ)) (ncl i c : ℕ),
      which[i]? = some (some c) →
      (clusterNodes adj fuel nodes which ncl).1[i]? = some (some c) := by
  intro nodes
  induction nodes with
  | nil => intro which ncl i c h; exact h
  | cons j rest ih =>
      intro which ncl i c h
      rcases hwj : which[j]? with _ | x
      · rw [clusterNodes_cons_none adj fuel j rest which ncl hwj]
        exact ih _ _ i c h
      · rcases x with _ | c2
        · rw [clusterNodes_cons_new adj fuel j rest which ncl hwj]
          exact ih _ _ i c (dfsAssign_preserves adj ncl fuel _ _ i c h)
        · rw [clusterNodes_cons_old adj fuel j rest which ncl c2 hwj]
          exact ih _ _ i c h

theorem clusterNodes_inv (adj : ℕ → List ℕ) (fuel : ℕ) :
    ∀ (nodes : List ℕ) (which : List (Option ℕ)) (ncl : ℕ),
      (∀ (i c : ℕ), which[i]? = some (some c) → c < ncl) →
      (ncl ≤ (clusterNodes adj fuel nodes which ncl).2
        ∧ ∀ (i c : ℕ), (clusterNodes adj fuel nodes which ncl).1[i]? = some (some c) →
            c < (clusterNodes adj fuel nodes which ncl).2) := by
  intro nodes
  induction nodes with
  | nil => intro which ncl h; exact ⟨le_rfl, h⟩
  | cons j rest ih =>
      intro which ncl h
      rcases hwj : which[j]? with _ | x
      · rw [clusterNodes_cons_none adj fuel j rest which ncl hwj]
        exact ih _ _ h
      · rcases x with _ | c2
        · rw [clusterNodes_cons_new adj fuel j rest which ncl hwj]
          have hnew : ∀ (i c : ℕ), (dfsAssign adj ncl fuel [j] which)[i]? = some (some c) →
              c < ncl + 1 := by
            intro i c hc
            rcases dfsAssign_new adj ncl fuel [j] which i c hc with h2 | rfl
            · exact Nat.lt_succ_of_lt (h i c h2)
            · exact Nat.lt_succ_self c
          obtain ⟨h1, h2⟩ := ih (dfsAssign adj ncl fuel [j] which) (ncl + 1) hnew
          exact ⟨Nat.le_of_succ_le h1, h2⟩
        · rw [clusterNodes_cons_old adj fuel j rest which ncl c2 hwj]
          exact ih _ _ h

theorem clusterNodes_complete (adj : ℕ → List ℕ) (fuel : ℕ) (hfuel : 1 ≤ fuel) :
    ∀ (nodes : List ℕ) (which : List (Option ℕ)) (ncl i : ℕ),
      i ∈ nodes → i < which.length →
      ∃ c, (clusterNodes adj fuel nodes which ncl).1[i]? = some (some c) := by
  intro nodes
  induction nodes with
  | nil => intro which ncl i hmem _; exact absurd hmem (List.not_mem_nil i)
  | cons j rest ih =>
      intro which ncl i hmem hlen
      rcases hwj : which[j]? with _ | x
      · rw [clusterNodes_cons_none adj fuel j rest which ncl hwj]
        have hj : ¬ j < which.length := by
          intro hjl
          rw [List.getElem?_eq_getElem hjl] at hwj
          exact absurd hwj (by simp)
        rcases List.mem_cons.mp hmem with rfl | hrest
        · exact absurd hlen hj
        · exact ih which ncl i hrest hlen
      · rcases x with _ | c2
        · rw [clusterNodes_cons_new adj fuel j rest which ncl hwj]
          rcases List.mem_cons.mp hmem with rfl | hrest
          · exact ⟨ncl, clusterNodes_preserves adj fuel rest _ (ncl + 1) i ncl
              (dfsAssign_start adj ncl fuel i which hfuel hwj)⟩
          · exact ih _ (ncl + 1) i hrest (by rw [dfsAssign_length]; exact hlen)
        · rw [clusterNodes_cons_old adj fuel j rest which ncl c2 hwj]
          rcases List.mem_cons.mp hmem with rfl | hrest
          · exact ⟨c2, clusterNodes_preserves adj fuel rest which ncl i c2 hwj⟩
          · exact ih which ncl i hrest hlen

theorem listSum_range_eq {M : Type} [AddCommMonoid M] (f : ℕ → M) (m : ℕ) :
    ((List.range m).map f).sum = ∑ c ∈ Finset.range m, f c := by
  induction m with
  | zero => simp
  | succ m ih =>
      rw [List.range_succ, List.map_append, List.sum_append, Finset.sum_range_succ, ih]
      simp

theorem count_sum_of_bounded (m : ℕ) :
    ∀ w : List (Option ℕ),
      (∀ x ∈ w, ∃ c, x = some c ∧ c < m) →
      ((List.range m).map (fun c => w.count (some c))).sum = w.length := by
  intro w
  induction w with
  | nil => intro _; simp
  | cons x w ih =>
      intro h
      obtain ⟨c0, rfl, hc0⟩ := h x (List.mem_cons_self x w)
      have hcount : ∀ c ∈ Finset.range m,
          (some c0 :: w).count (some c) = w.count (some c) + (if c = c0 then 1 else 0) := by
        intro c _
        rw [List.count_cons]
        congr 1
        by_cases hc : c = c0
        · simp [hc]
        · simp [hc]
          exact fun hh => hc hh.symm
      rw [listSum_range_eq, Finset.sum_congr rfl hcount, Finset.sum_add_distrib,
        Finset.sum_ite_eq' (Finset.range m) c0 (fun _ => 1), ← listSum_range_eq,
        ih (fun y hy => h y (List.mem_cons_of_mem _ hy))]
      simp [Finset.mem_range.mpr hc0]

/-! ### Remaining helpers for the claim theorems -/

theorem parseDecimal_thousandth : parseDecimal "0.001" = some (1 / 1000 : ℚ) := by
  rw [show parseDecimal "0.001"
    = some (((0 : ℕ) : ℚ) + ((1 : ℕ) : ℚ) / (10 : ℚ) ^ 3) from rfl]
  norm_num

theorem parseDecimal_half : parseDecimal "0.5" = some (1 / 2 : ℚ) := by
  rw [show parseDecimal "0.5"
    = some (((0 : ℕ) : ℚ) + ((5 : ℕ) : ℚ) / (10 : ℚ) ^ 1) from rfl]
  norm_num

theorem kernelActions_length (lab : String) (valnames : List String) :
    ∀ (kdefs : List String) (k0 : ℕ),
      (kernelActions lab valnames k0 kdefs).length = kdefs.length := by
  intro kdefs
  induction kdefs with
  | nil => intro k0; rfl
  | cons kd kdefs ih => intro k0; simp [kernelActions, ih]

theorem kernelActions_getElem (lab : String) (valnames : List String) :
    ∀ (kdefs : List String) (k0 i : ℕ) (kd : String), kdefs[i]? = some kd →
      (kernelActions lab valnames k0 kdefs)[i]?
        = some (kernelActionOf lab valnames (k0 + i) kd) := by
  intro kdefs
  induction kdefs with
  | nil => intro k0 i kd h; exact absurd h (by simp)
  | cons a kdefs ih =>
      intro k0 i kd h
      cases i with
      | zero =>
          have ha : a = kd := by simpa using h
          subst ha
          simp [kernelActions]
      | succ i =>
          have h2 := ih (k0 + 1) i kd (by simpa using h)
          have he : k0 + 1 + i = k0 + (i + 1) := by omega
          rw [he] at h2
          simpa [kernelActions] using h2

theorem pammKsum_nonneg (lab : String) (kval : String → ℚ) (n : ℕ)
    (h0 : ∀ k : ℕ, 0 ≤ kval (kernelLabel lab k)) : 0 ≤ pammKsum lab kval n := by
  unfold pammKsum
  apply List.sum_nonneg
  intro x hx
  rcases List.mem_map.mp hx with ⟨k, _, rfl⟩
  exact h0 k

theorem pammKsum_eq_finsetSum (lab : String) (kval : String → ℚ) (n : ℕ) :
    pammKsum lab kval n = ∑ k ∈ Finset.range n, kval (kernelLabel lab k) :=
  listSum_range_eq _ n

/-! ### Claim theorems -/

/-- C1: for every evaluation point (abstracted by the kernel values `kval`) and
every kernel `k` of the loaded set, the expanded action chain — COMBINE of all
kernel values, then `x+ε`, then per-kernel `x/y` — publishes under the
responsibility label `lab-k` exactly `value_k / (Σ_j value_j + ε)`, where ε is
the REGULARISE value. -/
theorem C1_responsibility_is_normalised_kernel_value
    (lab reg : String) (valnames : List String) (stream : List (Option String))
    (ef : String → List (List String)) (kval : String → ℚ) (ε : ℚ) (k : ℕ)
    (hreg : parseDecimal reg = some ε)
    (hef : ∀ s act, act ∈ ef s → SafeLabel lab (actionLabelOf act))
    (hk : k < (readKernelInputs stream).length) :
    lookupEnv (runChain kval (PAMM.expandShortcut lab valnames stream reg ef) [])
        (respLabel lab k)
      = some (kval (kernelLabel lab k)
          / (pammKsum lab kval (readKernelInputs stream).length + ε)) :=
  (pamm_chain_eval lab reg valnames stream ef kval ε hreg hef).2 k hk

theorem C1_witness :
    lookupEnv (runChain (fun _ => (3 : ℚ))
        (PAMM.expandShortcut "p" ["d1"] [some "K1", some "K2", none] "0.5"
          (fun _ => [])) [])
        (respLabel "p" 0)
      = some (6 / 13) := by
  have h := C1_responsibility_is_normalised_kernel_value "p" "0.5" ["d1"]
    [some "K1", some "K2", none] (fun _ => []) (fun _ => (3 : ℚ)) (1 / 2) 0
    parseDecimal_half (fun s act hh => absurd hh (List.not_mem_nil act)) (by decide)
  rw [h]
  have hn : (readKernelInputs [some "K1", some "K2", none]).length = 2 := rfl
  rw [hn]
  have hS : pammKsum "p" (fun _ => (3 : ℚ)) 2 = 6 := by
    simp [pammKsum, List.range_succ]
    norm_num
  rw [hS]
  norm_num

/-- C2 counterexample: the claim "`Σ_k responsibility_k` lies in (0,1], always
strictly positive" fails on the code at the concrete configuration in which
every kernel value is exactly 0 — a state the spec itself admits at finite
points (section 4.2: the exponent underflows to a value of exactly zero; and
scenario C posits all kernel values exactly 0).  There the published
responsibilities sum to 0, which is not strictly positive. -/
theorem C2_counterexample :
    ((List.range 2).map
        (fun k => (lookupEnv (runChain (fun _ => (0 : ℚ))
          (PAMM.expandShortcut "p" ["d1"] [some "K1", some "K2", none] "0.001"
            (fun _ => [])) []) (respLabel "p" k)).getD 0)).sum = 0
    ∧ ¬ (0 < ((List.range 2).map
        (fun k => (lookupEnv (runChain (fun _ => (0 : ℚ))
          (PAMM.expandShortcut "p" ["d1"] [some "K1", some "K2", none] "0.001"
            (fun _ => [])) []) (respLabel "p" k)).getD 0)).sum) := by
  have h := pamm_chain_eval "p" "0.001" ["d1"] [some "K1", some "K2", none]
    (fun _ => []) (fun _ => (0 : ℚ)) (1 / 1000) parseDecimal_thousandth
    (fun s act hh => absurd hh (List.not_mem_nil act))
  have h0 := h.2 0 (by decide)
  have h1 := h.2 1 (by decide)
  have hs : ((List.range 2).map
      (fun k => (lookupEnv (runChain (fun _ => (0 : ℚ))
        (PAMM.expandShortcut "p" ["d1"] [some "K1", some "K2", none] "0.001"
          (fun _ => [])) []) (respLabel "p" k)).getD 0)).sum = 0 := by
    rw [show List.range 2 = [0, 1] from rfl]
    simp only [List.map_cons, List.map_nil, List.sum_cons, List.sum_nil]
    rw [h0, h1]
    simp [zero_div]
  exact ⟨hs, by rw [hs]; exact lt_irrefl 0⟩

/-- C2 (amended): with nonnegative kernel values and a positive regularisation
constant, `Σ_k responsibility_k` lies in the closed interval [0,1]; it equals 0
precisely in the degenerate all-kernels-zero state that the counterexample
exhibits, so (0,1] must be widened to [0,1]. -/
theorem C2_amended_sum_of_responsibilities_in_unit_interval
    (lab reg : String) (valnames : List String) (stream : List (Option String))
    (ef : String → List (List String)) (kval : String → ℚ) (ε : ℚ)
    (hreg : parseDecimal reg = some ε) (hε : 0 < ε)
    (h0 : ∀ k : ℕ, 0 ≤ kval (kernelLabel lab k))
    (hef : ∀ s act, act ∈ ef s → SafeLabel lab (actionLabelOf act)) :
    0 ≤ ((List.range (readKernelInputs stream).length).map
        (fun k => (lookupEnv (runChain kval
          (PAMM.expandShortcut lab valnames stream reg ef) [])
          (respLabel lab k)).getD 0)).sum
    ∧ ((List.range (readKernelInputs stream).length).map
        (fun k => (lookupEnv (runChain kval
          (PAMM.expandShortcut lab valnames stream reg ef) [])
          (respLabel lab k)).getD 0)).sum ≤ 1 := by
  have h := pamm_chain_eval lab reg valnames stream ef kval ε hreg hef
  have hmap : ∀ k ∈ List.range (readKernelInputs stream).length,
      (lookupEnv (runChain kval (PAMM.expandShortcut lab valnames stream reg ef) [])
        (respLabel lab k)).getD 0
      = kval (kernelLabel lab k)
          / (pammKsum lab kval (readKernelInputs stream).length + ε) := by
    intro k hk
    rw [h.2 k (List.mem_range.mp hk)]
    rfl
  rw [List.map_congr_left hmap]
  have hSnn : 0 ≤ pammKsum lab kval (readKernelInputs stream).length :=
    pammKsum_nonneg lab kval _ h0
  have hD : 0 < pammKsum lab kval (readKernelInputs stream).length + ε := by linarith
  have hsum : ((List.range (readKernelInputs stream).length).map
      (fun k => kval (kernelLabel lab k)
        / (pammKsum lab kval (readKernelInputs stream).length + ε))).sum
      = pammKsum lab kval (readKernelInputs stream).length
          / (pammKsum lab kval (readKernelInputs stream).length + ε) := by
    rw [listSum_range_eq, pammKsum_eq_finsetSum, ← Finset.sum_div]
  rw [hsum]
  constructor
  · exact div_nonneg hSnn (le_of_lt hD)
  · rw [div_le_one hD]
    linarith

theorem C2_amended_witness :
    0 ≤ ((List.range (readKernelInputs [some "K1", some "K2", none]).length).map
        (fun k => (lookupEnv (runChain (fun _ => (0 : ℚ))
          (PAMM.expandShortcut "p" ["d1"] [some "K1", some "K2", none] "0.001"
            (fun _ => [])) [])
          (respLabel "p" k)).getD 0)).sum
    ∧ ((List.range (readKernelInputs [some "K1", some "K2", none]).length).map
        (fun k => (lookupEnv (runChain (fun _ => (0 : ℚ))
          (PAMM.expandShortcut "p" ["d1"] [some "K1", some "K2", none] "0.001"
            (fun _ => [])) [])
          (respLabel "p" k)).getD 0)).sum ≤ 1 :=
  C2_amended_sum_of_responsibilities_in_unit_interval "p" "0.001" ["d1"]
    [some "K1", some "K2", none] (fun _ => []) (fun _ => (0 : ℚ)) (1 / 1000)
    parseDecimal_thousandth (by norm_num) (fun _ => le_refl 0)
    (fun s act hh => absurd hh (List.not_mem_nil act))

/-- C3: with REGULARISE = 0.001 the chain publishes a regularised denominator
that is bounded below by ε = 1/1000 whenever kernel values are nonnegative; and
when every kernel value is exactly 0 the denominator equals exactly ε while
every responsibility equals 0 — no division-by-zero state exists. -/
theorem C3_denominator_guarded_by_epsilon
    (lab : String) (valnames : List String) (stream : List (Option String))
    (ef : String → List (List String)) (kval : String → ℚ)
    (h0 : ∀ k : ℕ, 0 ≤ kval (kernelLabel lab k))
    (hef : ∀ s act, act ∈ ef s → SafeLabel lab (actionLabelOf act)) :
    ∃ d : ℚ,
      lookupEnv (runChain kval (PAMM.expandShortcut lab valnames stream "0.001" ef) [])
          (lab ++ "_rksum") = some d
      ∧ 1 / 1000 ≤ d
      ∧ ((∀ k, k < (readKernelInputs stream).length → kval (kernelLabel lab k) = 0) →
          d = 1 / 1000
          ∧ ∀ k, k < (readKernelInputs stream).length →
              lookupEnv (runChain kval
                  (PAMM.expandShortcut lab valnames stream "0.001" ef) [])
                (respLabel lab k) = some 0) := by
  have h := pamm_chain_eval lab "0.001" valnames stream ef kval (1 / 1000)
    parseDecimal_thousandth hef
  refine ⟨pammKsum lab kval (readKernelInputs stream).length + 1 / 1000, h.1, ?_, ?_⟩
  · have := pammKsum_nonneg lab kval (readKernelInputs stream).length h0
    linarith
  · intro hz
    have hS0 : pammKsum lab kval (readKernelInputs stream).length = 0 := by
      unfold pammKsum
      rw [List.map_congr_left
        (fun k hk => hz k (List.mem_range.mp hk))]
      simp
    constructor
    · rw [hS0, zero_add]
    · intro k hk
      rw [h.2 k hk, hz k hk, hS0]
      norm_num

theorem C3_witness :
    ∃ d : ℚ,
      lookupEnv (runChain (fun _ => (0 : ℚ))
          (PAMM.expandShortcut "p" ["d1"] [some "K1", some "K2", none] "0.001"
            (fun _ => [])) [])
          ("p" ++ "_rksum") = some d
      ∧ 1 / 1000 ≤ d
      ∧ ((∀ k, k < (readKernelInputs [some "K1", some "K2", none]).length →
            (fun _ => (0 : ℚ)) (kernelLabel "p" k) = 0) →
          d = 1 / 1000
          ∧ ∀ k, k < (readKernelInputs [some "K1", some "K2", none]).length →
              lookupEnv (runChain (fun _ => (0 : ℚ))
                  (PAMM.expandShortcut "p" ["d1"] [some "K1", some "K2", none] "0.001"
                    (fun _ => [])) [])
                (respLabel "p" k) = some 0) :=
  C3_denominator_guarded_by_epsilon "p" ["d1"] [some "K1", some "K2", none]
    (fun _ => []) (fun _ => (0 : ℚ)) (fun _ => le_refl 0)
    (fun s act hh => absurd hh (List.not_mem_nil act))

/-- C4: for every index triple, requesting a force through the hard cluster
assignment is a fatal error: `getForceOnMatrixElement` (whose body in the
source is `plumed_error();`) never returns a value — in particular it never
silently returns zero — and applying forces through `apply` fails the same
way. -/
theorem C4_force_through_clustering_is_fatal :
    ∀ imat jrow krow : ℕ,
      ClusteringBase.getForceOnMatrixElement imat jrow krow
          = Except.error PlumedError.plumedError
      ∧ (∀ q : ℚ, ClusteringBase.getForceOnMatrixElement imat jrow krow ≠ Except.ok q)
      ∧ ClusteringBase.applyForce = Except.error PlumedError.plumedError := by
  intro imat jrow krow
  refine ⟨rfl, ?_, rfl⟩
  intro q hq
  simp [ClusteringBase.getForceOnMatrixElement] at hq

/-- C5: kernel loading reads records one at a time and stops, without an error,
at the first failed read: a stream whose first failed read comes after `n`
well-formed records yields exactly those `n` kernels, in order, and exactly
`n` kernel actions. -/
theorem C5_loading_stops_at_first_failed_read (recs : List String)
    (rest : List (Option String)) (lab : String) (valnames : List String) :
    readKernelInputs (recs.map some ++ none :: rest) = recs
    ∧ (kernelActions lab valnames 0
        (readKernelInputs (recs.map some ++ none :: rest))).length = recs.length := by
  have h : readKernelInputs (recs.map some ++ none :: rest) = recs := by
    induction recs with
    | nil => rfl
    | cons r recs ih =>
        simp only [List.map_cons, List.cons_append, readKernelInputs, List.append_eq]
        rw [ih]
  refine ⟨h, ?_⟩
  rw [h, kernelActions_length]

/-- C6: the REGULARISE keyword is registered compulsory with default exactly
"0.001"; when the caller supplies no value the resolved value is "0.001" and
when the caller supplies one, that exact value is resolved; and whatever
value `r` the expansion receives, the regularised sum adds exactly the parsed
value of `r` to the kernel sum. -/
theorem C6_regularise_default_and_exact_use (mcb : List Keyword)
    (user : List (String × String)) (lab : String) (valnames : List String)
    (stream : List (Option String)) (ef : String → List (List String))
    (kval : String → ℚ)
    (hef : ∀ s act, act ∈ ef s → SafeLabel lab (actionLabelOf act)) :
    (PAMM.shortcutKeywordsList mcb).find? (fun kw => kw.name == "REGULARISE")
        = some ⟨"compulsory", "REGULARISE", some "0.001",
            "do not allow the denominator to be smaller then this value"⟩
    ∧ (lookupStr user "REGULARISE" = none →
        effectiveKeyValue user ⟨"compulsory", "REGULARISE", some "0.001",
          "do not allow the denominator to be smaller then this value"⟩
          = some "0.001")
    ∧ (∀ v, lookupStr user "REGULARISE" = some v →
        effectiveKeyValue user ⟨"compulsory", "REGULARISE", some "0.001",
          "do not allow the denominator to be smaller then this value"⟩ = some v)
    ∧ (∀ (r : String) (ε : ℚ), parseDecimal r = some ε →
        lookupEnv (runChain kval (PAMM.expandShortcut lab valnames stream r ef) [])
            (lab ++ "_rksum")
          = some (pammKsum lab kval (readKernelInputs stream).length + ε)) := by
  refine ⟨?_, ?_, ?_, ?_⟩
  · unfold PAMM.shortcutKeywordsList
    rw [List.find?_cons_of_neg _ (by decide), List.find?_cons_of_neg _ (by decide),
      List.find?_cons_of_pos _ (by decide)]
  · intro h
    unfold effectiveKeyValue
    rw [h]
  · intro v h
    unfold effectiveKeyValue
    rw [h]
  · intro r ε hr
    exact (pamm_chain_eval lab r valnames stream ef kval ε hr hef).1

theorem C6_witness :
    effectiveKeyValue [] ⟨"compulsory", "REGULARISE", some "0.001",
        "do not allow the denominator to be smaller then this value"⟩ = some "0.001"
    ∧ lookupEnv (runChain (fun _ => (0 : ℚ))
        (PAMM.expandShortcut "p" ["d1"] [some "K1", some "K2", none] "0.001"
          (fun _ => [])) [])
        ("p" ++ "_rksum")
      = some (pammKsum "p" (fun _ => (0 : ℚ))
          (readKernelInputs [some "K1", some "K2", none]).length + 1 / 1000) := by
  have h := C6_regularise_default_and_exact_use [] [] "p" ["d1"]
    [some "K1", some "K2", none] (fun _ => []) (fun _ => (0 : ℚ))
    (fun s act hh => absurd hh (List.not_mem_nil act))
  exact ⟨h.2.1 rfl, h.2.2.2 "0.001" (1 / 1000) parseDecimal_thousandth⟩

/-- C7: kernel order equals file order and fixes the output labels: the k-th
record read (1-based number k+1 for 0-based k) yields the k-th action of the
expansion, a KERNEL action labelled `lab_kernel-(k+1)`, and the expansion
contains the responsibility action labelled `lab-(k+1)` whose first argument
is that kernel; the expansion is a pure function of its inputs, so identical
file contents give identical labelled output. -/
theorem C7_labels_follow_file_order (lab reg : String) (valnames : List String)
    (stream : List (Option String)) (ef : String → List (List String)) (k : ℕ)
    (hk : k < (readKernelInputs stream).length) :
    ∃ kd, (readKernelInputs stream)[k]? = some kd
      ∧ (PAMM.expandShortcut lab valnames stream reg ef)[k]?
          = some (kernelActionOf lab valnames k kd)
      ∧ (kernelActionOf lab valnames k kd).headD "" = kernelLabel lab k ++ ":"
      ∧ respAction lab k ∈ PAMM.expandShortcut lab valnames stream reg ef
      ∧ (respAction lab k).headD "" = respLabel lab k ++ ":"
      ∧ ("ARG1=" ++ kernelLabel lab k) ∈ respAction lab k := by
  refine ⟨(readKernelInputs stream).get ⟨k, hk⟩, List.getElem?_eq_getElem hk, ?_, rfl,
    ?_, rfl, ?_⟩
  · have hexp : PAMM.expandShortcut lab valnames stream reg ef
        = kernelActions lab valnames 0 (readKernelInputs stream)
            ++ [combineAction lab (readKernelInputs stream).length,
                rksumAction lab reg]
            ++ respActions lab ef (readKernelInputs stream).length := rfl
    rw [hexp, List.getElem?_append, if_pos, List.getElem?_append, if_pos]
    · have := kernelActions_getElem lab valnames (readKernelInputs stream) 0 k
        ((readKernelInputs stream).get ⟨k, hk⟩) (List.getElem?_eq_getElem hk)
      rwa [Nat.zero_add] at this
    · rw [kernelActions_length]
      exact hk
    · rw [List.length_append, kernelActions_length]
      omega
  · have hmem : respAction lab k :: ef (respLabel lab k)
        ∈ (List.range (readKernelInputs stream).length).map
          (fun j => respAction lab j :: ef (respLabel lab j)) :=
      List.mem_map.mpr ⟨k, List.mem_range.mpr hk, rfl⟩
    exact List.mem_append_right _
      (List.mem_flatten.mpr ⟨_, hmem, List.mem_cons_self _ _⟩)
  · exact List.mem_cons_of_mem _ (List.mem_cons_of_mem _ (List.mem_cons_self _ _))

theorem C7_witness :
    ∃ kd, (readKernelInputs [some "K1", some "K2", none])[0]? = some kd
      ∧ (PAMM.expandShortcut "p" ["d1"] [some "K1", some "K2", none] "0.5"
          (fun _ => []))[0]?
          = some (kernelActionOf "p" ["d1"] 0 kd)
      ∧ (kernelActionOf "p" ["d1"] 0 kd).headD "" = kernelLabel "p" 0 ++ ":"
      ∧ respAction "p" 0
          ∈ PAMM.expandShortcut "p" ["d1"] [some "K1", some "K2", none] "0.5"
            (fun _ => [])
      ∧ (respAction "p" 0).headD "" = respLabel "p" 0 ++ ":"
      ∧ ("ARG1=" ++ kernelLabel "p" 0) ∈ respAction "p" 0 :=
  C7_labels_follow_file_order "p" "0.5" ["d1"] [some "K1", some "K2", none]
    (fun _ => []) 0 (by decide)

/-- C8: after a clustering run on `N` nodes, the partition is complete: the
assignment vector has one entry per node, every node in `0..N-1` carries
exactly one cluster id, every id is below the reported cluster count, and the
recorded cluster sizes sum to `N`. -/
theorem C8_partition_complete (adj : ℕ → List ℕ) (N : ℕ) :
    (performClustering adj N).1.length = N
    ∧ (∀ i, i < N → ∃ c, (performClustering adj N).1[i]? = some (some c)
        ∧ c < (performClustering adj N).2)
    ∧ ((cluster_sizes (performClustering adj N).1 (performClustering adj N).2).map
        Prod.snd).sum = N := by
  have hlen : (performClustering adj N).1.length = N := by
    unfold performClustering
    rw [clusterNodes_length, List.length_replicate]
  have hfuel : 1 ≤ clusterFuel adj N := by
    unfold clusterFuel
    omega
  have hinit : ∀ (i c : ℕ), (List.replicate N (none : Option ℕ))[i]? = some (some c)
      → c < 0 := by
    intro i c h
    rw [List.getElem?_replicate] at h
    revert h
    split
    · intro h
      exact absurd h (by simp)
    · intro h
      exact absurd h (by simp)
  have hbound := (clusterNodes_inv adj (clusterFuel adj N) (List.range N)
    (List.replicate N none) 0 hinit).2
  have hcomp : ∀ i, i < N →
      ∃ c, (performClustering adj N).1[i]? = some (some c) := by
    intro i hi
    exact clusterNodes_complete adj (clusterFuel adj N) hfuel (List.range N)
      (List.replicate N none) 0 i (List.mem_range.mpr hi)
      (by rw [List.length_replicate]; exact hi)
  refine ⟨hlen, ?_, ?_⟩
  · intro i hi
    obtain ⟨c, hc⟩ := hcomp i hi
    exact ⟨c, hc, hbound i c hc⟩
  · unfold cluster_sizes
    have hsnd : ∀ c ∈ List.range (performClustering adj N).2,
        (Prod.snd ∘ fun c => (c, (performClustering adj N).1.count (some c))) c
          = (performClustering adj N).1.count (some c) := by
      intro c _
      rfl
    rw [List.map_map, List.map_congr_left hsnd]
    rw [count_sum_of_bounded (performClustering adj N).2 (performClustering adj N).1 ?_,
      hlen]
    intro x hx
    obtain ⟨i, hi⟩ := List.getElem?_of_mem hx
    have hiN : i < N := by
      have hl : i < (performClustering adj N).1.length := by
        by_contra hge
        rw [List.getElem?_eq_none (by omega)] at hi
        exact absurd hi (by simp)
      rwa [hlen] at hl
    obtain ⟨c, hc⟩ := hcomp i hiN
    have hx2 : x = some c := by
      rw [hi] at hc
      injection hc
    exact ⟨c, hx2, hbound i c hc⟩

/-- C9: directly constructing the PAMM action is a fatal error for every
options value — the constructor body is `plumed_error();` — so PAMM is usable
only through its registered shortcut expansion. -/
theorem C9_constructor_always_fatal :
    ∀ ao : ActionOptions,
      PAMM.construct ao = Except.error PlumedError.plumedError
      ∧ ∀ u : Unit, PAMM.construct ao ≠ Except.ok u := by
  intro ao
  refine ⟨rfl, ?_⟩
  intro u hu
  simp [PAMM.construct] at hu

/-- C10: the node count of a clustering object is the first dimension of its
first matrix argument: `getNumberOfNodes` returns `getShape()[0]` of
argument 0. -/
theorem C10_nodes_is_first_shape_entry (n : ℕ) (srest : List ℕ)
    (rest : List PlumedValue) :
    ClusteringBase.getNumberOfNodes (⟨n :: srest⟩ :: rest) = n := rfl

theorem C4_witness :
    ClusteringBase.getForceOnMatrixElement 0 0 0 = Except.error PlumedError.plumedError
    ∧ ClusteringBase.getForceOnMatrixElement 0 0 0 ≠ Except.ok (5 : ℚ)
    ∧ ClusteringBase.applyForce = Except.error PlumedError.plumedError :=
  ⟨(C4_force_through_clustering_is_fatal 0 0 0).1,
    (C4_force_through_clustering_is_fatal 0 0 0).2.1 5,
    (C4_force_through_clustering_is_fatal 0 0 0).2.2⟩

theorem C8_witness :
    (performClustering (fun _ => [0, 1]) 2).1.length = 2
    ∧ (∃ c, (performClustering (fun _ => [0, 1]) 2).1[0]? = some (some c)
        ∧ c < (performClustering (fun _ => [0, 1]) 2).2)
    ∧ ((cluster_sizes (performClustering (fun _ => [0, 1]) 2).1
        (performClustering (fun _ => [0, 1]) 2).2).map Prod.snd).sum = 2 :=
  ⟨(C8_partition_complete (fun _ => [0, 1]) 2).1,
    (C8_partition_complete (fun _ => [0, 1]) 2).2.1 0 (by norm_num),
    (C8_partition_complete (fun _ => [0, 1]) 2).2.2⟩

theorem C9_witness :
    PAMM.construct ⟨[]⟩ = Except.error PlumedError.plumedError
    ∧ PAMM.construct ⟨[]⟩ ≠ Except.ok () :=
  ⟨(C9_constructor_always_fatal ⟨[]⟩).1, (C9_constructor_always_fatal ⟨[]⟩).2 ()⟩
